import Mathlib

/-!
Verification of the aggregation-pipeline rewrite engine: path-modification
descriptors and the provenance query `whatHappenedTo`, the sort-rename
cross product, the filter/sample pushdown rewrites of `optimizeAt`, and the
stage-parser registry.  Definitions are shallow embeddings of the C++ in
`src/mongo/db/pipeline/document_source.cpp` and
`src/mongo/db/pipeline/document_source_single_document_transformation.cpp`;
collaborator types that live in headers outside the excerpt (FieldPath,
DocumentSourceMatch, StageConstraints, the BSON layer) are modelled from the
spec, each with a doc comment saying so.
-/

namespace Mongo

/-- Modelled from the spec: a `FieldPath` ("a dotted sequence of named
segments") is a list of segment names; `field_path.h` is not part of the
excerpt.  The segment list of `"a.b"` is `["a", "b"]`. -/
abbrev FieldPath := List String

/-- Modelled from the spec: `FieldPath::getPathLength()` is the number of
dotted segments. -/
def FieldPath.getPathLength (p : FieldPath) : Nat := p.length

/-- Modelled from the spec: `FieldPath::getSubpath(i)` is the leading
subpath holding path elements `0` through `i`. -/
def FieldPath.getSubpath (p : FieldPath) (i : Nat) : FieldPath := p.take (i + 1)

/-- Modelled from the spec: `FieldPath::getSuffix(n)` is the trailing part of
the path beyond the first `n` elements. -/
def FieldPath.getSuffix (p : FieldPath) (n : Nat) : FieldPath := p.drop n

/-- Modelled from the spec: `FieldPath::concat` joins two dotted paths. -/
def FieldPath.concat (p q : FieldPath) : FieldPath := p ++ q

/-- Modelled from the spec: `a.isPrefixOf b` holds when every segment of `a`
is the corresponding leading segment of `b` (equality included), the prefix
semantics §3 gives to dotted paths. -/
def FieldPath.isPrefixOfB (p q : FieldPath) : Bool := List.isPrefixOf p q

/-- Embedding of `overlaps` (document_source.cpp:298-301): compare the two
paths on the first `min` length segments.  Two paths overlap iff either is a
prefix of the other (or they are equal). -/
def overlaps (x y : FieldPath) : Bool :=
  let numElements := min x.getPathLength y.getPathLength
  x.take numElements == y.take numElements

/-- Embedding of `DocumentSource::GetModPathsReturn::Type`
(the four-case tag of the path-modification descriptor). -/
inductive ModType
  | kNotSupported
  | kAllPaths
  | kFiniteSet
  | kAllExcept
deriving DecidableEq, Repr

/-- Embedding of `DocumentSource::GetModPathsReturn`: the descriptor's tag,
its `paths` set and its `renames` map.  The C++ `std::set<std::string>` and
`StringMap<std::string>` (keyed by the *new* name, value the *old* name) are
modelled as lists of parsed field paths; `computedMonotonic` is carried
nowhere in the functions under proof and is omitted. -/
structure GetModPathsReturn where
  type : ModType
  paths : List FieldPath
  renames : List (FieldPath × FieldPath)
deriving DecidableEq, Repr

/-- Embedding of `DocumentSource::GetModPathsReturn::whatHappenedTo`
(document_source.cpp:304-376), transcribed clause for clause:
`kFiniteSet` pushes `oldName` when nothing in `paths` or `renames`
(keyed by the overwritten new name) overlaps it; `kAllExcept` pushes
`oldName` when some leading subpath of it is a member of `paths`;
both cases then walk `renames` and, for each entry whose *source* is a
prefix of `oldName`, push `source.concat(oldName.getSuffix(source.getPathLength()))`
-- exactly as written in the C++, whose active code applies `concat` to
`source` (the declared `target` is unused, and the dotted-target guard
exists only as commented-out lines). -/
def whatHappenedTo (m : GetModPathsReturn) (oldName : FieldPath) : List FieldPath :=
  let preservedPart : List FieldPath :=
    match m.type with
    | ModType.kFiniteSet =>
        let preserved :=
          m.paths.all (fun overwritten => !overlaps oldName overwritten) &&
          m.renames.all (fun tf => !overlaps oldName tf.1)
        if preserved then [oldName] else []
    | ModType.kAllExcept =>
        if (List.range oldName.getPathLength).any
            (fun i => m.paths.contains (oldName.getSubpath i))
        then [oldName] else []
    | _ => []
  let renamePart : List FieldPath :=
    match m.type with
    | ModType.kFiniteSet | ModType.kAllExcept =>
        m.renames.filterMap (fun tf =>
          let source := tf.2
          if source.isPrefixOfB oldName then
            some (source.concat (oldName.getSuffix source.getPathLength))
          else
            none)
    | _ => []
  preservedPart ++ renamePart

end Mongo

namespace Mongo

/-- Claim C3: the overlap predicate is symmetric and reflexive, decides the
two sample pairs as the spec says, and holds exactly when one path is a
prefix of the other at the shorter length (equality included). -/
theorem overlaps_symm_refl_characterization :
    ∀ p q : FieldPath,
      overlaps p q = overlaps q p ∧
      overlaps p p = true ∧
      (overlaps p q = true ↔ p <+: q ∨ q <+: p) ∧
      overlaps ["a", "b"] ["a", "b", "c"] = true ∧
      overlaps ["a", "b"] ["a", "c"] = false := by
  intro p q
  have hchar : ∀ x y : FieldPath, (overlaps x y = true ↔ x <+: y ∨ y <+: x) := by
    intro x y
    unfold overlaps
    simp only [FieldPath.getPathLength, beq_iff_eq]
    rcases Nat.le_total x.length y.length with hle | hle
    · rw [Nat.min_eq_left hle, List.take_length]
      constructor
      · intro h
        exact Or.inl (List.prefix_iff_eq_take.mpr h)
      · rintro (h | h)
        · exact List.prefix_iff_eq_take.mp h
        · have hxy : y = x := h.eq_of_length_le hle
          subst hxy
          simp [List.take_length]
    · rw [Nat.min_eq_right hle, List.take_length]
      constructor
      · intro h
        exact Or.inr (List.prefix_iff_eq_take.mpr h.symm)
      · rintro (h | h)
        · have hxy : x = y := h.eq_of_length_le hle
          subst hxy
          simp [List.take_length]
        · exact (List.prefix_iff_eq_take.mp h).symm
  refine ⟨?_, ?_, hchar p q, by decide, by decide⟩
  · by_cases h : p <+: q ∨ q <+: p
    · rw [(hchar p q).mpr h, (hchar q p).mpr (Or.symm h)]
    · have e1 : overlaps p q = false :=
        Bool.not_eq_true _ |>.mp (fun hh => h ((hchar p q).mp hh))
      have e2 : overlaps q p = false :=
        Bool.not_eq_true _ |>.mp (fun hh => h (Or.symm ((hchar q p).mp hh)))
      rw [e1, e2]
  · exact (hchar p p).mpr (Or.inl (List.prefix_refl p))

/-- Claim C1: evaluating the embedded `whatHappenedTo` at the spec's
rename-composition example `FiniteSet{paths:{}, renames:{"b":"a"}}`.  The
claim demands `["b"]` for `"a"` and `["b.c"]` for `"a.c"`; the code instead
yields `["a","a"]` and `["a.c","a.c"]`, because the active composition line
concatenates onto `source` (the declared `target` is never used), returning
the old path itself, and because the untouched source path is also counted
as preserved. -/
theorem whatHappenedTo_rename_composition_eval :
    whatHappenedTo ⟨ModType.kFiniteSet, [], [(["b"], ["a"])]⟩ ["a"] = [["a"], ["a"]] ∧
    whatHappenedTo ⟨ModType.kFiniteSet, [], [(["b"], ["a"])]⟩ ["a", "c"] =
      [["a", "c"], ["a", "c"]] ∧
    whatHappenedTo ⟨ModType.kFiniteSet, [], [(["b"], ["a"])]⟩ ["a"] ≠ [["b"]] ∧
    whatHappenedTo ⟨ModType.kFiniteSet, [], [(["b"], ["a"])]⟩ ["a", "c"] ≠ [["b", "c"]] := by
  refine ⟨by decide, by decide, by decide, by decide⟩

/-- Claim C4: evaluating the embedded `whatHappenedTo` at a descriptor whose
sole rename has a dotted (broadcast) target, `FiniteSet{paths:{},
renames:{"x.y":"a"}}`, queried at `"a"`.  The claim says such an entry
contributes no alternative new name, so the result should be just `["a"]`
(the preserved name); the code's composition loop fires anyway — its dotted-
target guard exists only as commented-out lines — and contributes a second
entry. -/
theorem whatHappenedTo_broadcast_target_eval :
    whatHappenedTo ⟨ModType.kFiniteSet, [], [(["x", "y"], ["a"])]⟩ ["a"] =
      [["a"], ["a"]] ∧
    whatHappenedTo ⟨ModType.kFiniteSet, [], [(["x", "y"], ["a"])]⟩ ["a"] ≠ [["a"]] := by
  refine ⟨by decide, by decide⟩

/-- Claim C5 counterexample: for `FiniteSet{paths:{"a.c"}, renames:{"b":"a"}}`
queried at `"a.c"`, the result still contains `"a.c"` unchanged (the rename
loop re-adds it via `source.concat`), even though `"a.c"` overlaps the
modified path `"a.c"` — refuting the claimed "only if" direction. -/
theorem finiteSet_preservation_iff_cex :
    (["a", "c"] : FieldPath) ∈
      whatHappenedTo ⟨ModType.kFiniteSet, [["a", "c"]], [(["b"], ["a"])]⟩ ["a", "c"] ∧
    (["a", "c"] : FieldPath) ∈
      (GetModPathsReturn.mk ModType.kFiniteSet [["a", "c"]] [(["b"], ["a"])]).paths ∧
    overlaps ["a", "c"] ["a", "c"] = true := by
  refine ⟨by decide, by decide, by decide⟩

/-- Claim C5 as amended: for a `FiniteSet` descriptor **with no renames**,
`whatHappenedTo(oldPath)` includes `oldPath` unchanged iff `oldPath` overlaps
no path in the descriptor's modified-paths set (and the result is then
`[oldPath]`, otherwise `[]`); in particular, for `FiniteSet{paths:{"x"}}`,
`whatHappenedTo("y") = ["y"]`, `whatHappenedTo("x") = []` and
`whatHappenedTo("x.z") = []`. -/
theorem finiteSet_identity_preservation (m : GetModPathsReturn) (p : FieldPath)
    (h1 : m.type = ModType.kFiniteSet) (h2 : m.renames = []) :
    ((p ∈ whatHappenedTo m p ↔ ∀ q ∈ m.paths, overlaps p q = false) ∧
      (whatHappenedTo m p = [p] ∨ whatHappenedTo m p = [])) ∧
    whatHappenedTo ⟨ModType.kFiniteSet, [["x"]], []⟩ ["y"] = [["y"]] ∧
    whatHappenedTo ⟨ModType.kFiniteSet, [["x"]], []⟩ ["x"] = [] ∧
    whatHappenedTo ⟨ModType.kFiniteSet, [["x"]], []⟩ ["x", "z"] = [] := by
  have hw : whatHappenedTo m p =
      (if m.paths.all (fun q => !overlaps p q) then [p] else []) := by
    unfold whatHappenedTo
    rw [h1, h2]
    simp
  refine ⟨⟨?_, ?_⟩, by decide, by decide, by decide⟩
  · rw [hw]
    by_cases hb : m.paths.all (fun q => !overlaps p q)
    · simp only [hb, if_true]
      simp only [List.all_eq_true, Bool.not_eq_true'] at hb
      exact ⟨fun _ => hb, fun _ => List.mem_singleton.mpr rfl⟩
    · have hb' : m.paths.all (fun q => !overlaps p q) = false :=
        Bool.not_eq_true _ |>.mp hb
      simp only [hb', Bool.false_eq_true, if_false]
      simp only [List.all_eq_true, Bool.not_eq_true'] at hb
      simpa using hb
  · rw [hw]
    by_cases hb : m.paths.all (fun q => !overlaps p q) <;> simp [hb]

/-- Embedding of the helper `renameInto` (document_source.cpp:387-410): the
depth-first cross-product expansion of one sort pattern under the
old-path-to-new-paths map.  A sort pattern is modelled as the list of its
parts' field paths (`SortPattern::SortPatternPart` and its direction/meta
fields live in headers outside the excerpt); the C++ `std::map` is an
association list and its `invariant(it != oldToNew.end())` — the caller must
give every part an explicit entry — is the `none` outcome here. -/
def renameInto (oldToNew : List (FieldPath × List FieldPath)) :
    List FieldPath → Option (List (List FieldPath))
  | [] => some [[]]
  | part :: rest =>
    match oldToNew.lookup part with
    | none => none
    | some alts =>
      match renameInto oldToNew rest with
      | none => none
      | some tails => some (alts.flatMap (fun a => tails.map (fun t => a :: t)))

/-- Embedding of `DocumentSource::Sorts::rename` (document_source.cpp:414-425):
every pattern of the set is expanded by `renameInto` and the results are
collected.  The C++ collects into `std::set`; the model keeps a list, so
theorems about it speak of membership and of single-pattern inputs where
the set order cannot matter. -/
def Sorts.rename (oldToNew : List (FieldPath × List FieldPath)) :
    List (List FieldPath) → Option (List (List FieldPath))
  | [] => some []
  | s :: rest =>
    match renameInto oldToNew s, Sorts.rename oldToNew rest with
    | some rs, some rrest => some (rs ++ rrest)
    | _, _ => none

/-- Claim C2: evaluating the embedded rename machinery (the only part of the
sort-propagation path that is valid C++) at the claim's three examples: the
mapping `{a ↦ [a2], b ↦ [b]}` turns the pattern `(a, b)` into exactly
`(a2, b)` with arity preserved; a part mapped to the empty list drops the
whole pattern; an untouched part survives unchanged.
`DocumentSourceSingleDocumentTransformation::getOutputSorts` itself, which
must build the mapping, does not compile (see the claim's record). -/
theorem sorts_rename_cross_product_eval :
    Sorts.rename [(["a"], [["a2"]]), (["b"], [["b"]])] [[["a"], ["b"]]] =
      some [[["a2"], ["b"]]] ∧
    Sorts.rename [(["a"], [])] [[["a"]]] = some [] ∧
    Sorts.rename [(["b"], [["b"]])] [[["b"]]] = some [[["b"]]] ∧
    Sorts.rename [(["a"], [["a2"], ["z"]]), (["b"], [["b"]])] [[["a"], ["b"]]] =
      some [[["a2"], ["b"]], [["z"], ["b"]]] := by
  refine ⟨by decide, by decide, by decide, by decide⟩

/-- Claim C5 witness: the amended theorem applied at the concrete descriptor
`FiniteSet{paths:{"x"}, renames:{}}` and path `"y"`. -/
theorem finiteSet_identity_preservation_witness :
    (((["y"] : FieldPath) ∈ whatHappenedTo ⟨ModType.kFiniteSet, [["x"]], []⟩ ["y"] ↔
        ∀ q ∈ [(["x"] : FieldPath)], overlaps ["y"] q = false) ∧
      (whatHappenedTo ⟨ModType.kFiniteSet, [["x"]], []⟩ ["y"] = [["y"]] ∨
        whatHappenedTo ⟨ModType.kFiniteSet, [["x"]], []⟩ ["y"] = [])) ∧
    whatHappenedTo ⟨ModType.kFiniteSet, [["x"]], []⟩ ["y"] = [["y"]] ∧
    whatHappenedTo ⟨ModType.kFiniteSet, [["x"]], []⟩ ["x"] = [] ∧
    whatHappenedTo ⟨ModType.kFiniteSet, [["x"]], []⟩ ["x", "z"] = [] :=
  finiteSet_identity_preservation ⟨ModType.kFiniteSet, [["x"]], []⟩ ["y"] rfl rfl

end Mongo

namespace Mongo

/-- Modelled from the spec: one conjunct of a filter stage's predicate.
`DocumentSourceMatch` and `expression_algo` live outside the excerpt; §4.2
needs only the paths a conjunct references (for the independent/dependent
split), whether it is a text-search predicate, and whether it holds an
`$exists` predicate on the grouped-output identity field `_id`. -/
structure Conjunct where
  deps : List FieldPath
  isText : Bool
  existsOnId : Bool
deriving DecidableEq, Repr

/-- Modelled from the spec: `DocumentSourceMatch::isTextQuery()` — the filter
contains a full-text-search predicate. -/
def isTextQuery (pred : List Conjunct) : Bool := pred.any (·.isText)

/-- Modelled from the spec:
`expression::hasExistencePredicateOnPath(expr, "_id")` — the filter contains
an existence (`$exists`) predicate on the grouped-output identity field. -/
def hasExistencePredicateOnId (pred : List Conjunct) : Bool := pred.any (·.existsOnId)

/-- Embedding of a pipeline stage as the engine sees one.  Following §9's
design note, the C++ `dynamic_cast`s to `DocumentSourceMatch`,
`DocumentSourceSample` and `DocumentSourceGroup` become constructors/optional
views: a filter stage carries its predicate, a sampling stage is bare, and
every other stage (`plain`) carries its two capability flags, its optional
group identity fields (`some` exactly when the C++ group downcast would
succeed) and its path-modification descriptor.  Modelled from the spec:
`StageConstraints` of the filter and sampling stages themselves are outside
the excerpt; §4.2 ties the two swap capabilities to stages whose effect is an
order-preserving per-document transformation, which a filter (it drops
documents) and a sampler (it drops documents at random) are not, so their
flags are `false`. -/
inductive Stage
  | dsmatch (pred : List Conjunct)
  | sample
  | plain (swapMatch swapSample : Bool) (groupIds : Option (List FieldPath))
      (mod : GetModPathsReturn)
deriving DecidableEq, Repr

/-- Embedding of `constraints().canSwapWithMatch`. -/
def Stage.canSwapWithMatch : Stage → Bool
  | .plain b _ _ _ => b
  | _ => false

/-- Embedding of `constraints().canSwapWithSkippingOrLimitingStage`. -/
def Stage.canSwapWithSkippingOrLimitingStage : Stage → Bool
  | .plain _ b _ _ => b
  | _ => false

/-- Embedding of `dynamic_cast<DocumentSourceMatch*>` on a stage. -/
def Stage.asMatch : Stage → Option (List Conjunct)
  | .dsmatch pred => some pred
  | _ => none

/-- Embedding of `dynamic_cast<DocumentSourceSample*>` on a stage. -/
def Stage.isSample : Stage → Bool
  | .sample => true
  | _ => false

/-- Embedding of `dynamic_cast<DocumentSourceGroup*>` plus `getIdFields()`:
`some` holds the group's identity fields when the stage is a group. -/
def Stage.getIdFields : Stage → Option (List FieldPath)
  | .plain _ _ g _ => g
  | _ => none

/-- Embedding of `getModifiedPaths()`.  A filter or sampler rewrites no
paths, so those stages answer the empty finite set; the engine never
consults them (only a stage whose capability flag is set reaches the
split). -/
def Stage.getModifiedPaths : Stage → GetModPathsReturn
  | .plain _ _ _ m => m
  | _ => ⟨ModType.kFiniteSet, [], []⟩

/-- Helper for the termination measure: a stage that is neither a filter nor
a sampler. -/
def Stage.isPlain : Stage → Bool
  | .plain _ _ _ _ => true
  | _ => false

/-- Embedding of `groupMatchSwapVerified` (document_source.cpp:177-183): a
group with other than exactly one identity field always verifies; a
single-key group verifies iff the following filter has no `$exists`
predicate on `_id`. -/
def groupMatchSwapVerified (nextMatch : List Conjunct) (idFields : List FieldPath) : Bool :=
  if idFields.length ≠ 1 then true
  else !hasExistencePredicateOnId nextMatch

/-- Modelled from the spec: the field paths a filter's predicate references
(the C++ `DepsTracker` fields of the match). -/
def matchDeps (pred : List Conjunct) : List FieldPath := pred.flatMap (·.deps)

/-- Modelled from the spec:
`semantic_analysis::extractModifiedDependencies(fields, preservedPaths)` —
the referenced paths that are not under any explicitly preserved path, i.e.
the ones the `AllExcept` stage may modify. -/
def extractModifiedDependencies (deps preservedPaths : List FieldPath) : List FieldPath :=
  deps.filter (fun d => !preservedPaths.any (fun p => p.isPrefixOfB d))

/-- Modelled from the spec: `DocumentSourceMatch::splitSourceBy` — split the
filter into the conjuncts independent of the modified paths (they reference
no overlapping path) and the dependent remainder, each `none` when empty.
The renaming `splitSourceBy` applies to the independent part's paths changes
predicate contents, not which conjuncts move, and is not needed by any
claim, so it is left out. -/
def splitSourceBy (pred : List Conjunct) (modifiedPaths : List FieldPath) :
    Option (List Conjunct) × Option (List Conjunct) :=
  let touches := fun (cj : Conjunct) =>
    cj.deps.any (fun d => modifiedPaths.any (fun q => overlaps d q))
  let indep := pred.filter (fun cj => !touches cj)
  let dep := pred.filter (fun cj => touches cj)
  ((if indep.isEmpty then none else some indep),
    (if dep.isEmpty then none else some dep))

/-- Embedding of `splitMatchByModifiedFields` (document_source.cpp:133-161):
`kNotSupported` and `kAllPaths` refuse to swap (everything stays after the
stage); `kFiniteSet` splits by the listed modified paths; `kAllExcept`
splits by the referenced paths not under a preserved path or rename
target. -/
def splitMatchByModifiedFields (pred : List Conjunct) (m : GetModPathsReturn) :
    Option (List Conjunct) × Option (List Conjunct) :=
  match m.type with
  | ModType.kNotSupported => (none, some pred)
  | ModType.kAllPaths => (none, some pred)
  | ModType.kFiniteSet => splitSourceBy pred m.paths
  | ModType.kAllExcept =>
      let preservedPaths := m.paths ++ m.renames.map (·.1)
      splitSourceBy pred (extractModifiedDependencies (matchDeps pred) preservedPaths)

/-- Embedding of `DocumentSource::pushMatchBefore` (document_source.cpp:187-215)
on an index-addressed stage sequence (§9's replacement for the C++ iterator
surgery): at position `i`, when the capability flag is set, the next stage is
a non-text filter, the group guard verifies, and the split yields an
independent part, the original filter is erased, the independent part is
inserted immediately before the current stage and the dependent remainder,
when present, immediately after it; the Bool is the C++ return value and the
list the mutated container. -/
def pushMatchBefore : Nat → List Stage → Bool × List Stage
  | 0, cur :: nxt :: post =>
    (match Stage.asMatch nxt with
     | none => (false, cur :: nxt :: post)
     | some pred =>
       if Stage.canSwapWithMatch cur && !isTextQuery pred &&
          (match Stage.getIdFields cur with
           | none => true
           | some ids => groupMatchSwapVerified pred ids) then
         match splitMatchByModifiedFields pred (Stage.getModifiedPaths cur) with
         | (some indep, some d) =>
             (true, Stage.dsmatch indep :: cur :: Stage.dsmatch d :: post)
         | (some indep, none) => (true, Stage.dsmatch indep :: cur :: post)
         | (none, _) => (false, cur :: nxt :: post)
       else (false, cur :: nxt :: post))
  | 0, c => (false, c)
  | Nat.succ _, [] => (false, [])
  | Nat.succ i, s :: rest =>
    let r := pushMatchBefore i rest
    (r.1, s :: r.2)

/-- Embedding of `DocumentSource::pushSampleBefore`
(document_source.cpp:217-228): when the capability flag is set and the next
stage is a sampler, the sampler is relocated to immediately before the
current stage. -/
def pushSampleBefore : Nat → List Stage → Bool × List Stage
  | 0, cur :: nxt :: post =>
    if Stage.canSwapWithSkippingOrLimitingStage cur && Stage.isSample nxt then
      (true, nxt :: cur :: post)
    else (false, cur :: nxt :: post)
  | 0, c => (false, c)
  | Nat.succ _, [] => (false, [])
  | Nat.succ i, s :: rest =>
    let r := pushSampleBefore i rest
    (r.1, s :: r.2)

/-- Embedding of `DocumentSource::optimizeAt` (document_source.cpp:230-243):
try the two engine rewrites when a next stage exists; on success return the
position two steps before the current stage's new position, clamped to the
sequence start (`prev(itr) == begin ? prev(itr) : prev(prev(itr))`);
otherwise delegate to the stage-specific hook `doOpt` (virtual
`doOptimizeAt`, passed in explicitly since its overrides live per stage). -/
def optimizeAt (doOpt : Nat → List Stage → Nat × List Stage) (i : Nat)
    (c : List Stage) : Nat × List Stage :=
  if i + 1 < c.length then
    match pushMatchBefore i c with
    | (true, c') => (if i = 0 then 0 else i - 1, c')
    | (false, _) =>
      match pushSampleBefore i c with
      | (true, c') => (if i = 0 then 0 else i - 1, c')
      | (false, _) => doOpt i c
  else doOpt i c

end Mongo

namespace Mongo

/-- Helper: unfolding `pushMatchBefore` one position down the sequence. -/
theorem pushMatchBefore_cons (s : Stage) (i : Nat) (c : List Stage) :
    pushMatchBefore (i + 1) (s :: c) =
      ((pushMatchBefore i c).1, s :: (pushMatchBefore i c).2) := rfl

/-- Helper: unfolding `pushSampleBefore` one position down the sequence. -/
theorem pushSampleBefore_cons (s : Stage) (i : Nat) (c : List Stage) :
    pushSampleBefore (i + 1) (s :: c) =
      ((pushSampleBefore i c).1, s :: (pushSampleBefore i c).2) := rfl

/-- Helper: `pushMatchBefore` at the position right after a fixed preamble
acts on the tail alone. -/
theorem pushMatchBefore_append (pre c : List Stage) :
    pushMatchBefore pre.length (pre ++ c) =
      ((pushMatchBefore 0 c).1, pre ++ (pushMatchBefore 0 c).2) := by
  induction pre with
  | nil => exact Prod.mk.eta.symm
  | cons s pre ih =>
      simp only [List.cons_append, List.length_cons, pushMatchBefore_cons, ih,
        List.cons_append]

/-- Helper: `pushSampleBefore` at the position right after a fixed preamble
acts on the tail alone. -/
theorem pushSampleBefore_append (pre c : List Stage) :
    pushSampleBefore pre.length (pre ++ c) =
      ((pushSampleBefore 0 c).1, pre ++ (pushSampleBefore 0 c).2) := by
  induction pre with
  | nil => exact Prod.mk.eta.symm
  | cons s pre ih =>
      simp only [List.cons_append, List.length_cons, pushSampleBefore_cons, ih,
        List.cons_append]

end Mongo

namespace Mongo

/-- Claim C6: a grouping stage whose identity key is a single field, followed
by a filter containing an `$exists` predicate on the grouped-output identity
field, is never swapped by the engine: `pushMatchBefore` reports `false` and
leaves the sequence untouched (whatever the group's capability flag `b`
says), `pushSampleBefore` cannot apply, and `optimizeAt` falls through to
the stage-specific hook with the sequence unchanged. -/
theorem group_exists_guard_blocks_pushMatch (pre post : List Stage) (b y : Bool)
    (ids : List FieldPath) (m : GetModPathsReturn) (pred : List Conjunct)
    (doOpt : Nat → List Stage → Nat × List Stage)
    (h1 : ids.length = 1) (h2 : hasExistencePredicateOnId pred = true) :
    pushMatchBefore pre.length
        (pre ++ Stage.plain b y (some ids) m :: Stage.dsmatch pred :: post) =
      (false, pre ++ Stage.plain b y (some ids) m :: Stage.dsmatch pred :: post) ∧
    optimizeAt doOpt pre.length
        (pre ++ Stage.plain b y (some ids) m :: Stage.dsmatch pred :: post) =
      doOpt pre.length
        (pre ++ Stage.plain b y (some ids) m :: Stage.dsmatch pred :: post) := by
  have hguard : groupMatchSwapVerified pred ids = false := by
    simp [groupMatchSwapVerified, h1, h2]
  have hm0 : pushMatchBefore 0 (Stage.plain b y (some ids) m :: Stage.dsmatch pred :: post) =
      (false, Stage.plain b y (some ids) m :: Stage.dsmatch pred :: post) := by
    simp [pushMatchBefore, Stage.asMatch, Stage.getIdFields, hguard]
  have hs0 : pushSampleBefore 0 (Stage.plain b y (some ids) m :: Stage.dsmatch pred :: post) =
      (false, Stage.plain b y (some ids) m :: Stage.dsmatch pred :: post) := by
    simp [pushSampleBefore, Stage.isSample]
  have hm : pushMatchBefore pre.length
      (pre ++ Stage.plain b y (some ids) m :: Stage.dsmatch pred :: post) =
      (false, pre ++ Stage.plain b y (some ids) m :: Stage.dsmatch pred :: post) := by
    rw [pushMatchBefore_append, hm0]
  have hs : pushSampleBefore pre.length
      (pre ++ Stage.plain b y (some ids) m :: Stage.dsmatch pred :: post) =
      (false, pre ++ Stage.plain b y (some ids) m :: Stage.dsmatch pred :: post) := by
    rw [pushSampleBefore_append, hs0]
  refine ⟨hm, ?_⟩
  by_cases hlen : pre.length + 1 <
      (pre ++ Stage.plain b y (some ids) m :: Stage.dsmatch pred :: post).length
  · rw [optimizeAt, if_pos hlen, hm, hs]
  · rw [optimizeAt, if_neg hlen]

/-- Claim C6 witness: the guard theorem applied to the concrete two-stage
sequence `[group by x, filter x exists on _id]`. -/
theorem group_exists_guard_blocks_pushMatch_witness :
    pushMatchBefore 0
        ([] ++ Stage.plain true false (some [["x"]]) ⟨ModType.kFiniteSet, [], []⟩ ::
          Stage.dsmatch [⟨[["_id"]], false, true⟩] :: []) =
      (false, [] ++ Stage.plain true false (some [["x"]]) ⟨ModType.kFiniteSet, [], []⟩ ::
        Stage.dsmatch [⟨[["_id"]], false, true⟩] :: []) ∧
    optimizeAt (fun j c => (j + 1, c)) 0
        ([] ++ Stage.plain true false (some [["x"]]) ⟨ModType.kFiniteSet, [], []⟩ ::
          Stage.dsmatch [⟨[["_id"]], false, true⟩] :: []) =
      (fun j c => (j + 1, c)) 0
        ([] ++ Stage.plain true false (some [["x"]]) ⟨ModType.kFiniteSet, [], []⟩ ::
          Stage.dsmatch [⟨[["_id"]], false, true⟩] :: []) :=
  group_exists_guard_blocks_pushMatch [] [] true false [["x"]]
    ⟨ModType.kFiniteSet, [], []⟩ [⟨[["_id"]], false, true⟩]
    (fun j c => (j + 1, c)) rfl rfl

/-- Claim C10: the group guard applies only to single-key groups.  First
conjunct: `groupMatchSwapVerified` answers `true` for any filter whenever the
group's identity-field set has size other than one.  Second conjunct: such a
multi-key group followed by a (possibly `$exists`-on-`_id`-containing)
non-text filter whose split yields an independent part is still rewritten by
`pushMatchBefore` exactly as for any other swap-capable stage. -/
theorem multiKey_group_remains_eligible (pre post : List Stage) (y : Bool)
    (ids : List FieldPath) (m : GetModPathsReturn) (pred indep : List Conjunct)
    (optDep : Option (List Conjunct))
    (h1 : ids.length ≠ 1) (h2 : isTextQuery pred = false)
    (h3 : splitMatchByModifiedFields pred m = (some indep, optDep)) :
    groupMatchSwapVerified pred ids = true ∧
    pushMatchBefore pre.length
        (pre ++ Stage.plain true y (some ids) m :: Stage.dsmatch pred :: post) =
      (true, pre ++ Stage.dsmatch indep :: Stage.plain true y (some ids) m ::
        ((match optDep with
          | none => ([] : List Stage)
          | some d => [Stage.dsmatch d]) ++ post)) := by
  have hguard : groupMatchSwapVerified pred ids = true := by
    simp [groupMatchSwapVerified, h1]
  refine ⟨hguard, ?_⟩
  have hm0 : pushMatchBefore 0 (Stage.plain true y (some ids) m :: Stage.dsmatch pred :: post) =
      (true, Stage.dsmatch indep :: Stage.plain true y (some ids) m ::
        ((match optDep with
          | none => ([] : List Stage)
          | some d => [Stage.dsmatch d]) ++ post)) := by
    simp only [pushMatchBefore, Stage.asMatch, Stage.getIdFields, Stage.canSwapWithMatch,
      Stage.getModifiedPaths, hguard, h2, h3, Bool.not_false, Bool.and_true, Bool.true_and,
      if_true]
    cases optDep with
    | none => simp [h3]
    | some d => simp [h3]
  rw [pushMatchBefore_append, hm0]

/-- Claim C10 witness: a group keyed by the two fields `x, y` followed by a
filter with an `$exists` predicate on `_id` is still pushed before the
group. -/
theorem multiKey_group_remains_eligible_witness :
    groupMatchSwapVerified [⟨[["_id"]], false, true⟩] [["x"], ["y"]] = true ∧
    pushMatchBefore 0
        ([] ++ Stage.plain true false (some [["x"], ["y"]]) ⟨ModType.kFiniteSet, [], []⟩ ::
          Stage.dsmatch [⟨[["_id"]], false, true⟩] :: []) =
      (true, [] ++ Stage.dsmatch [⟨[["_id"]], false, true⟩] ::
        Stage.plain true false (some [["x"], ["y"]]) ⟨ModType.kFiniteSet, [], []⟩ ::
        ((match (none : Option (List Conjunct)) with
          | none => ([] : List Stage)
          | some d => [Stage.dsmatch d]) ++ [])) :=
  multiKey_group_remains_eligible [] [] false [["x"], ["y"]]
    ⟨ModType.kFiniteSet, [], []⟩ [⟨[["_id"]], false, true⟩] [⟨[["_id"]], false, true⟩]
    none (by decide) rfl (by decide)

end Mongo

namespace Mongo

/-- Helper: a successful `pushMatchBefore` decomposes the sequence as
preamble + current stage + filter, the current stage is swap-capable, the
split produced an independent part, and the result is the preamble, the
independent part, the current stage, the optional dependent remainder and
the untouched tail. -/
theorem pushMatch_shape : ∀ (i : Nat) (c c' : List Stage),
    pushMatchBefore i c = (true, c') →
    ∃ (pre : List Stage) (cur : Stage) (pred indep : List Conjunct)
      (optDep : Option (List Conjunct)) (post : List Stage),
      c = pre ++ cur :: Stage.dsmatch pred :: post ∧
      pre.length = i ∧
      Stage.canSwapWithMatch cur = true ∧
      splitMatchByModifiedFields pred (Stage.getModifiedPaths cur) = (some indep, optDep) ∧
      c' = pre ++ Stage.dsmatch indep :: cur ::
        ((match optDep with
          | none => ([] : List Stage)
          | some d => [Stage.dsmatch d]) ++ post)
  | 0, [], c', h => by simp [pushMatchBefore] at h
  | 0, [cur], c', h => by simp [pushMatchBefore] at h
  | 0, cur :: Stage.sample :: post, c', h => by
      simp [pushMatchBefore, Stage.asMatch] at h
  | 0, cur :: Stage.plain b y g mm :: post, c', h => by
      simp [pushMatchBefore, Stage.asMatch] at h
  | 0, cur :: Stage.dsmatch pred :: post, c', h => by
      simp only [pushMatchBefore, Stage.asMatch] at h
      by_cases hcond : (Stage.canSwapWithMatch cur && !isTextQuery pred &&
          (match Stage.getIdFields cur with
           | none => true
           | some ids => groupMatchSwapVerified pred ids)) = true
      · rw [if_pos hcond] at h
        have hswap : Stage.canSwapWithMatch cur = true := by
          simp only [Bool.and_eq_true] at hcond
          exact hcond.1.1
        rcases hsplit : splitMatchByModifiedFields pred (Stage.getModifiedPaths cur)
          with ⟨o1, o2⟩
        rw [hsplit] at h
        cases o1 with
        | none => simp at h
        | some indep =>
          cases o2 with
          | none =>
            simp only [Prod.mk.injEq, true_and] at h
            exact ⟨[], cur, pred, indep, none, post, rfl, rfl, hswap, hsplit, h.symm⟩
          | some d =>
            simp only [Prod.mk.injEq, true_and] at h
            exact ⟨[], cur, pred, indep, some d, post, rfl, rfl, hswap, hsplit, h.symm⟩
      · rw [if_neg hcond] at h
        simp at h
  | Nat.succ i, [], c', h => by simp [pushMatchBefore] at h
  | Nat.succ i, s :: rest, c', h => by
      rw [pushMatchBefore_cons] at h
      have h1 : (pushMatchBefore i rest).1 = true := congrArg Prod.fst h
      have h2 : s :: (pushMatchBefore i rest).2 = c' := congrArg Prod.snd h
      have hr : pushMatchBefore i rest = (true, (pushMatchBefore i rest).2) := by
        rw [← h1]
      obtain ⟨pre, cur, pred, indep, optDep, post, e1, e2, e3, e4, e5⟩ :=
        pushMatch_shape i rest _ hr
      exact ⟨s :: pre, cur, pred, indep, optDep, post, by rw [e1]; rfl,
        by simp [e2], e3, e4, by rw [← h2, e5]; rfl⟩

/-- Helper: when `pushMatchBefore` succeeds and a next stage exists,
`optimizeAt` returns the success position (two steps before the current
stage's new position, clamped to the start) and the mutated sequence. -/
theorem optimizeAt_of_pushMatch (doOpt : Nat → List Stage → Nat × List Stage)
    (i : Nat) (c c' : List Stage) (hlen : i + 1 < c.length)
    (h : pushMatchBefore i c = (true, c')) :
    optimizeAt doOpt i c = (if i = 0 then 0 else i - 1, c') := by
  rw [optimizeAt, if_pos hlen, h]

end Mongo

namespace Mongo

/-- Claim C7: whenever filter pushdown succeeds, the sequence decomposes as
preamble + current stage + filter; the only mutations are that the original
filter is erased, the independent part of its split is inserted immediately
before the current stage and the dependent remainder (when present)
immediately after it — preamble and tail are untouched and in order — and
`optimizeAt` then returns the position two steps before the current stage's
new position, clamped to the start of the sequence. -/
theorem pushMatchBefore_success_frame (i : Nat) (c c' : List Stage)
    (doOpt : Nat → List Stage → Nat × List Stage)
    (h : pushMatchBefore i c = (true, c')) :
    ∃ (pre : List Stage) (cur : Stage) (pred indep : List Conjunct)
      (optDep : Option (List Conjunct)) (post : List Stage),
      c = pre ++ cur :: Stage.dsmatch pred :: post ∧
      pre.length = i ∧
      splitMatchByModifiedFields pred (Stage.getModifiedPaths cur) = (some indep, optDep) ∧
      c' = pre ++ Stage.dsmatch indep :: cur ::
        ((match optDep with
          | none => ([] : List Stage)
          | some d => [Stage.dsmatch d]) ++ post) ∧
      optimizeAt doOpt i c = (if i = 0 then 0 else i - 1, c') := by
  obtain ⟨pre, cur, pred, indep, optDep, post, e1, e2, e3, e4, e5⟩ :=
    pushMatch_shape i c c' h
  have hlen : i + 1 < c.length := by
    rw [e1]
    simp only [List.length_append, List.length_cons]
    omega
  exact ⟨pre, cur, pred, indep, optDep, post, e1, e2, e4, e5,
    optimizeAt_of_pushMatch doOpt i c c' hlen h⟩

/-- Claim C7 witness: the frame theorem applied to the concrete success
`[transform, filter on z]` with an all-independent split. -/
theorem pushMatchBefore_success_frame_witness :
    ∃ (pre : List Stage) (cur : Stage) (pred indep : List Conjunct)
      (optDep : Option (List Conjunct)) (post : List Stage),
      [Stage.plain true false none ⟨ModType.kFiniteSet, [], []⟩,
        Stage.dsmatch [⟨[["z"]], false, false⟩]] =
        pre ++ cur :: Stage.dsmatch pred :: post ∧
      pre.length = 0 ∧
      splitMatchByModifiedFields pred (Stage.getModifiedPaths cur) = (some indep, optDep) ∧
      [Stage.dsmatch [⟨[["z"]], false, false⟩],
        Stage.plain true false none ⟨ModType.kFiniteSet, [], []⟩] =
        pre ++ Stage.dsmatch indep :: cur ::
          ((match optDep with
            | none => ([] : List Stage)
            | some d => [Stage.dsmatch d]) ++ post) ∧
      optimizeAt (fun j c => (j + 1, c)) 0
          [Stage.plain true false none ⟨ModType.kFiniteSet, [], []⟩,
            Stage.dsmatch [⟨[["z"]], false, false⟩]] =
        (if 0 = 0 then 0 else 0 - 1,
          [Stage.dsmatch [⟨[["z"]], false, false⟩],
            Stage.plain true false none ⟨ModType.kFiniteSet, [], []⟩]) :=
  pushMatchBefore_success_frame 0
    [Stage.plain true false none ⟨ModType.kFiniteSet, [], []⟩,
      Stage.dsmatch [⟨[["z"]], false, false⟩]]
    [Stage.dsmatch [⟨[["z"]], false, false⟩],
      Stage.plain true false none ⟨ModType.kFiniteSet, [], []⟩]
    (fun j c => (j + 1, c)) (by decide)

end Mongo

namespace Mongo

/-- Helper: the termination weight of a stage — its conjunct count for a
filter, one for a sampler, zero for every other stage. -/
def Stage.weight : Stage → Nat
  | .dsmatch pred => pred.length
  | .sample => 1
  | .plain _ _ _ _ => 0

/-- Helper: the termination measure of a sequence given `p` plain stages
already seen: each filter conjunct and each sampler is charged the number of
plain (neither filter nor sampler) stages strictly before it.  Each engine
rewrite moves at least one charged item across exactly one plain stage, so
the measure strictly decreases. -/
def seqMeasure : Nat → List Stage → Nat
  | _, [] => 0
  | p, s :: rest => s.weight * p + seqMeasure (p + (if s.isPlain then 1 else 0)) rest

/-- Helper: the conjunct count of an optional dependent remainder. -/
def optLen : Option (List Conjunct) → Nat
  | none => 0
  | some d => d.length

theorem weight_dsmatch (pred : List Conjunct) :
    Stage.weight (Stage.dsmatch pred) = pred.length := rfl

theorem weight_sample : Stage.weight Stage.sample = 1 := rfl

theorem isPlain_dsmatch (pred : List Conjunct) :
    Stage.isPlain (Stage.dsmatch pred) = false := rfl

theorem isPlain_sample : Stage.isPlain Stage.sample = false := rfl

/-- Helper: a filter's conjuncts are partitioned by the split's test. -/
theorem length_filter_not_add_filter (t : Conjunct → Bool) (l : List Conjunct) :
    (l.filter (fun x => !t x)).length + (l.filter t).length = l.length := by
  induction l with
  | nil => rfl
  | cons a l ih =>
      cases ht : t a <;> simp [List.filter_cons, ht] <;> omega

/-- Helper: a successful `splitSourceBy` returns a non-empty independent
part, and the two parts' conjunct counts sum to the original filter's. -/
theorem splitSourceBy_facts (pred : List Conjunct) (mp : List FieldPath)
    (indep : List Conjunct) (optDep : Option (List Conjunct))
    (h : splitSourceBy pred mp = (some indep, optDep)) :
    0 < indep.length ∧ indep.length + optLen optDep = pred.length := by
  unfold splitSourceBy at h
  simp only at h
  by_cases h1 : (pred.filter (fun cj =>
      !cj.deps.any (fun d => mp.any (fun q => overlaps d q)))).isEmpty
  · rw [if_pos h1] at h
    exact absurd (congrArg Prod.fst h) (by simp)
  · rw [if_neg h1] at h
    have hi : indep = pred.filter (fun cj =>
        !cj.deps.any (fun d => mp.any (fun q => overlaps d q))) := by
      have := congrArg Prod.fst h
      simp only [Option.some.injEq] at this
      exact this.symm
    have hpos : 0 < indep.length := by
      rw [hi, List.length_pos]
      intro he
      rw [he] at h1
      simp at h1
    refine ⟨hpos, ?_⟩
    have hsum := length_filter_not_add_filter
      (fun cj => cj.deps.any (fun d => mp.any (fun q => overlaps d q))) pred
    by_cases h2 : (pred.filter (fun cj =>
        cj.deps.any (fun d => mp.any (fun q => overlaps d q)))).isEmpty
    · rw [if_pos h2] at h
      have ho : optDep = none := (congrArg Prod.snd h).symm
      have h2' : (pred.filter (fun cj =>
          cj.deps.any (fun d => mp.any (fun q => overlaps d q)))).length = 0 := by
        rw [List.isEmpty_iff] at h2
        rw [h2]
        rfl
      rw [ho, hi]
      simp only [optLen]
      omega
    · rw [if_neg h2] at h
      have ho : optDep = some (pred.filter (fun cj =>
          cj.deps.any (fun d => mp.any (fun q => overlaps d q)))) :=
        (congrArg Prod.snd h).symm
      rw [ho, hi]
      simp only [optLen]
      omega

/-- Helper: the same two facts for `splitMatchByModifiedFields`. -/
theorem splitMatch_facts (pred : List Conjunct) (m : GetModPathsReturn)
    (indep : List Conjunct) (optDep : Option (List Conjunct))
    (h : splitMatchByModifiedFields pred m = (some indep, optDep)) :
    0 < indep.length ∧ indep.length + optLen optDep = pred.length := by
  unfold splitMatchByModifiedFields at h
  cases hm : m.type <;> rw [hm] at h
  · exact absurd (congrArg Prod.fst h) (by simp)
  · exact absurd (congrArg Prod.fst h) (by simp)
  · exact splitSourceBy_facts _ _ _ _ h
  · exact splitSourceBy_facts _ _ _ _ h

/-- Helper: a stage with either swap capability set is a plain stage of
weight zero. -/
theorem capable_is_plain (s : Stage)
    (h : Stage.canSwapWithMatch s = true ∨
      Stage.canSwapWithSkippingOrLimitingStage s = true) :
    Stage.weight s = 0 ∧ Stage.isPlain s = true := by
  cases s with
  | dsmatch pred =>
      rcases h with h | h <;> simp [Stage.canSwapWithMatch,
        Stage.canSwapWithSkippingOrLimitingStage] at h
  | sample =>
      rcases h with h | h <;> simp [Stage.canSwapWithMatch,
        Stage.canSwapWithSkippingOrLimitingStage] at h
  | plain b y g mm => exact ⟨rfl, rfl⟩

/-- Helper: the measure drops across a preamble when it drops on the tail at
every plain count. -/
theorem seqMeasure_append_lt (pre l l' : List Stage)
    (h : ∀ q, seqMeasure q l' < seqMeasure q l) (p : Nat) :
    seqMeasure p (pre ++ l') < seqMeasure p (pre ++ l) := by
  induction pre generalizing p with
  | nil => exact h p
  | cons s pre ih =>
      simp only [List.cons_append, seqMeasure]
      exact Nat.add_lt_add_left (ih _) _

/-- Helper: a successful filter pushdown strictly decreases the measure. -/
theorem pushMatch_measure (i : Nat) (c c' : List Stage)
    (h : pushMatchBefore i c = (true, c')) (p : Nat) :
    seqMeasure p c' < seqMeasure p c := by
  obtain ⟨pre, cur, pred, indep, optDep, post, e1, e2, e3, e4, e5⟩ :=
    pushMatch_shape i c c' h
  obtain ⟨hw, hpl⟩ := capable_is_plain cur (Or.inl e3)
  obtain ⟨hpos, hsum⟩ := splitMatch_facts pred _ indep optDep e4
  rw [e1, e5]
  apply seqMeasure_append_lt
  intro q
  cases optDep with
  | none =>
      have hlen : indep.length = pred.length := by
        simpa [optLen] using hsum
      simp only [List.append_eq, List.nil_append, seqMeasure, weight_dsmatch,
        isPlain_dsmatch, hw, hpl, Bool.false_eq_true, if_false, if_true, Nat.add_zero,
        Nat.zero_mul, Nat.zero_add]
      have hp : 0 < pred.length := hlen ▸ hpos
      rw [hlen]
      have e : pred.length * (q + 1) = pred.length * q + pred.length := Nat.mul_succ _ _
      omega
  | some d =>
      have hlen : indep.length + d.length = pred.length := by
        simpa [optLen] using hsum
      simp only [List.append_eq, List.cons_append, List.nil_append, seqMeasure,
        weight_dsmatch, isPlain_dsmatch, hw, hpl, Bool.false_eq_true, if_false, if_true,
        Nat.add_zero, Nat.zero_mul, Nat.zero_add]
      have ea : pred.length * (q + 1) = pred.length * q + pred.length := Nat.mul_succ _ _
      have eb : d.length * (q + 1) = d.length * q + d.length := Nat.mul_succ _ _
      have ec : pred.length * q = indep.length * q + d.length * q := by
        rw [← hlen, Nat.add_mul]
      omega

/-- Helper: a successful `pushSampleBefore` decomposes the sequence as
preamble, swap-capable current stage, sampler, tail, and swaps the two
middle stages. -/
theorem pushSample_shape : ∀ (i : Nat) (c c' : List Stage),
    pushSampleBefore i c = (true, c') →
    ∃ (pre : List Stage) (cur : Stage) (post : List Stage),
      c = pre ++ cur :: Stage.sample :: post ∧
      pre.length = i ∧
      Stage.canSwapWithSkippingOrLimitingStage cur = true ∧
      c' = pre ++ Stage.sample :: cur :: post
  | 0, [], c', h => by simp [pushSampleBefore] at h
  | 0, [cur], c', h => by simp [pushSampleBefore] at h
  | 0, cur :: nxt :: post, c', h => by
      by_cases hcond : (Stage.canSwapWithSkippingOrLimitingStage cur &&
          Stage.isSample nxt) = true
      · have hs : Stage.isSample nxt = true := (Bool.and_eq_true _ _ |>.mp hcond).2
        have hnxt : nxt = Stage.sample := by
          cases nxt with
          | sample => rfl
          | dsmatch pd => simp [Stage.isSample] at hs
          | plain b y g mm => simp [Stage.isSample] at hs
        subst hnxt
        simp only [pushSampleBefore, hcond, if_true, Prod.mk.injEq, true_and] at h
        exact ⟨[], cur, post, rfl, rfl, (Bool.and_eq_true _ _ |>.mp hcond).1, h.symm⟩
      · simp only [pushSampleBefore, hcond, if_false] at h
        simp at h
  | Nat.succ i, [], c', h => by simp [pushSampleBefore] at h
  | Nat.succ i, s :: rest, c', h => by
      rw [pushSampleBefore_cons] at h
      have h1 : (pushSampleBefore i rest).1 = true := congrArg Prod.fst h
      have h2 : s :: (pushSampleBefore i rest).2 = c' := congrArg Prod.snd h
      have hr : pushSampleBefore i rest = (true, (pushSampleBefore i rest).2) := by
        rw [← h1]
      obtain ⟨pre, cur, post, e1, e2, e3, e4⟩ := pushSample_shape i rest _ hr
      exact ⟨s :: pre, cur, post, by rw [e1]; rfl, by simp [e2], e3,
        by rw [← h2, e4]; rfl⟩

/-- Helper: a successful sample pushdown strictly decreases the measure. -/
theorem pushSample_measure (i : Nat) (c c' : List Stage)
    (h : pushSampleBefore i c = (true, c')) (p : Nat) :
    seqMeasure p c' < seqMeasure p c := by
  obtain ⟨pre, cur, post, e1, e2, e3, e4⟩ := pushSample_shape i c c' h
  obtain ⟨hw, hpl⟩ := capable_is_plain cur (Or.inr e3)
  rw [e1, e4]
  apply seqMeasure_append_lt
  intro q
  simp only [seqMeasure, weight_sample, isPlain_sample, hw, hpl, Bool.false_eq_true,
    if_false, if_true, Nat.add_zero, Nat.zero_mul, Nat.zero_add, Nat.one_mul]
  omega

/-- Definition of one successful engine-level rewrite of `optimizeAt`: at
some position, filter pushdown or sample pushdown fires and produces the new
sequence. -/
def EngineStep (c c' : List Stage) : Prop :=
  ∃ i, pushMatchBefore i c = (true, c') ∨ pushSampleBefore i c = (true, c')

/-- Claim C8: engine-level rewriting terminates.  Along any infinite run of
stage sequences some step is not a successful engine rewrite: every
successful filter or sample pushdown moves the relocated stage (or the
independent part of the split filter) strictly earlier, across exactly one
swap-capable stage, which strictly decreases a finite measure, so repeated
application of `optimizeAt` across full passes reaches, after finitely many
passes, a pass with zero engine rewrites. -/
theorem engine_rewrites_terminate :
    ∀ f : ℕ → List Stage, ∃ n, ¬ EngineStep (f n) (f (n + 1)) := by
  intro f
  by_contra hall
  push_neg at hall
  have hdec : ∀ n, seqMeasure 0 (f (n + 1)) < seqMeasure 0 (f n) := by
    intro n
    obtain ⟨i, h | h⟩ := hall n
    · exact pushMatch_measure i _ _ h 0
    · exact pushSample_measure i _ _ h 0
  have hb : ∀ n, seqMeasure 0 (f n) + n ≤ seqMeasure 0 (f 0) := by
    intro n
    induction n with
    | zero => omega
    | succ n ih =>
        have := hdec n
        omega
  have := hb (seqMeasure 0 (f 0) + 1)
  omega

end Mongo

namespace Mongo

/-- Embedding of the user-visible failures of `DocumentSource::parse` and
`DocumentSource::registerParser`: uassert 16435 ("A pipeline stage
specification object must contain exactly one field."), uassert 16436
("Unrecognized pipeline stage name"), `ErrorCodes::QueryFeatureNotAllowed`
(stage not allowed in the current feature compatibility version), and
massert 28707 ("Duplicate document source registered."). -/
inductive ParseErr
  | wrongFieldCount
  | unknownStageName
  | queryFeatureNotAllowed
  | duplicateRegistration
deriving DecidableEq, Repr

/-- Embedding of the anonymous `ParserRegistration` record
(document_source.cpp:64-67): the parser callback and its optional minimum
feature-compatibility version.  `σ` stands for the BSON stage-spec element
and `τ` for the parser's stage list, both opaque external types; versions
are ordered by `Nat`. -/
structure ParserRegistration (σ τ : Type) where
  parser : σ → τ
  requiredMinVersion : Option Nat

/-- Embedding of the version gate of `DocumentSource::parse`
(document_source.cpp:106-112): pass when the context sets no maximum
feature-compatibility version, when the registration demands no minimum, or
when the demanded minimum is at most the maximum. -/
def fcvAllowed (maxFCV reqMin : Option Nat) : Bool :=
  match maxFCV, reqMin with
  | none, _ => true
  | _, none => true
  | some mx, some rq => decide (rq ≤ mx)

/-- Embedding of `DocumentSource::parse` (document_source.cpp:91-115): the
stage specification object (a BSON object modelled as its field list) must
have exactly one field; that field's name must be registered; the version
gate must pass; then the registered parser's result is returned.  The
process-wide `parserMap` (a `StringMap`) is passed explicitly as an
association list, per §9's design note. -/
def parse {σ τ : Type} (parserMap : List (String × ParserRegistration σ τ))
    (maxFCV : Option Nat) (stageObj : List (String × σ)) : Except ParseErr τ :=
  match stageObj with
  | [(stageName, stageSpec)] =>
    match parserMap.lookup stageName with
    | none => Except.error ParseErr.unknownStageName
    | some reg =>
      if fcvAllowed maxFCV reg.requiredMinVersion then
        Except.ok (reg.parser stageSpec)
      else
        Except.error ParseErr.queryFeatureNotAllowed
  | _ => Except.error ParseErr.wrongFieldCount

/-- Embedding of `DocumentSource::registerParser` (document_source.cpp:72-81):
registering an already-registered stage name raises massert 28707, otherwise
the registration is recorded. -/
def registerParser {σ τ : Type} (parserMap : List (String × ParserRegistration σ τ))
    (nm : String) (reg : ParserRegistration σ τ) :
    Except ParseErr (List (String × ParserRegistration σ τ)) :=
  match parserMap.lookup nm with
  | some _ => Except.error ParseErr.duplicateRegistration
  | none => Except.ok ((nm, reg) :: parserMap)

/-- Claim C9: `parse` returns the registered parser's result iff the stage
specification object has exactly one field, that field's name is registered,
and the registration's minimum feature-compatibility version (when one is
demanded and a maximum is in force) is satisfied; each violated condition
yields its own distinct error and no stage is constructed; and
`registerParser` errors exactly on duplicate names. -/
theorem parse_registry_errors :
    ∀ (σ τ : Type) (pm : List (String × ParserRegistration σ τ)) (maxFCV : Option Nat)
      (stageObj : List (String × σ)) (nm : String) (reg : ParserRegistration σ τ),
      ((∃ r, parse pm maxFCV stageObj = Except.ok r) ↔
        (∃ nm2 sp reg2, stageObj = [(nm2, sp)] ∧ pm.lookup nm2 = some reg2 ∧
          fcvAllowed maxFCV reg2.requiredMinVersion = true)) ∧
      (∀ nm2 sp reg2, stageObj = [(nm2, sp)] → pm.lookup nm2 = some reg2 →
        fcvAllowed maxFCV reg2.requiredMinVersion = true →
        parse pm maxFCV stageObj = Except.ok (reg2.parser sp)) ∧
      (stageObj.length ≠ 1 →
        parse pm maxFCV stageObj = Except.error ParseErr.wrongFieldCount) ∧
      (∀ nm2 sp, stageObj = [(nm2, sp)] → pm.lookup nm2 = none →
        parse pm maxFCV stageObj = Except.error ParseErr.unknownStageName) ∧
      (∀ nm2 sp reg2, stageObj = [(nm2, sp)] → pm.lookup nm2 = some reg2 →
        fcvAllowed maxFCV reg2.requiredMinVersion = false →
        parse pm maxFCV stageObj = Except.error ParseErr.queryFeatureNotAllowed) ∧
      (ParseErr.wrongFieldCount ≠ ParseErr.unknownStageName ∧
        ParseErr.wrongFieldCount ≠ ParseErr.queryFeatureNotAllowed ∧
        ParseErr.unknownStageName ≠ ParseErr.queryFeatureNotAllowed) ∧
      (pm.lookup nm = some reg →
        registerParser pm nm reg = Except.error ParseErr.duplicateRegistration) ∧
      (pm.lookup nm = none →
        registerParser pm nm reg = Except.ok ((nm, reg) :: pm)) := by
  intro σ τ pm maxFCV stageObj nm reg
  refine ⟨?_, ?_, ?_, ?_, ?_, by refine ⟨by decide, by decide, by decide⟩, ?_, ?_⟩
  · constructor
    · rintro ⟨r, hr⟩
      match stageObj, hr with
      | [(n, s)], hr =>
        refine ⟨n, s, ?_⟩
        cases hlk : pm.lookup n with
        | none => simp [parse, hlk] at hr
        | some reg2 =>
          refine ⟨reg2, rfl, rfl, ?_⟩
          by_cases hfc : fcvAllowed maxFCV reg2.requiredMinVersion = true
          · exact hfc
          · rw [Bool.not_eq_true] at hfc
            simp [parse, hlk, hfc] at hr
    · rintro ⟨nm2, sp, reg2, he, hlk, hfc⟩
      subst he
      exact ⟨reg2.parser sp, by simp [parse, hlk, hfc]⟩
  · rintro nm2 sp reg2 he hlk hfc
    subst he
    simp [parse, hlk, hfc]
  · intro hlen
    match stageObj, hlen with
    | [], _ => rfl
    | [(n, s)], hlen => simp at hlen
    | (a :: b :: rest), _ => rfl
  · rintro nm2 sp he hlk
    subst he
    simp [parse, hlk]
  · rintro nm2 sp reg2 he hlk hfc
    subst he
    simp [parse, hlk, hfc]
  · intro hlk
    simp [registerParser, hlk]
  · intro hlk
    simp [registerParser, hlk]

end Mongo
